import Mathlib

/-!
Shallow embedding of the `ArchWiki` Python module of arch-wiki-docs-zh
(`src/ArchWiki/ArchWiki.py`) together with proofs about its behaviour.

Strings are modelled as `List Char`.  The title-parsing regular expression
`^((.+):)?(.+)$` used by `detect_namespace` is modelled by `lastColonAux`,
which splits a character list at the last colon that leaves a nonempty
remainder (the behaviour of the greedy group `(.+)` followed by `:` and a
nonempty tail); an empty candidate group corresponds to the optional group
failing to match.  Python dictionaries are modelled as association lists
with first-match lookup and in-place update.
-/

def chars (s : String) : List Char := s.data

/-- Model of Python `str.replace("_", " ")` on a character list. -/
def uscoreToSpace (s : List Char) : List Char :=
  s.map fun c => if c = '_' then ' ' else c

/-- Model of Python `str.replace(" ", "_")` on a character list. -/
def spaceToUscore (s : List Char) : List Char :=
  s.map fun c => if c = ' ' then '_' else c

/-- Association-list lookup, modelling Python `dict` indexing / `dict.get`. -/
def dlookup {α β : Type} [DecidableEq α] (k : α) : List (α × β) → Option β
  | [] => none
  | kv :: rest => if kv.1 = k then some kv.2 else dlookup k rest

/-- Namespace map as returned by `ArchWiki.namespaces()`: id to display name. -/
abbrev NsMap := List (Nat × List Char)

/-- Model of `self.namespaces().values()`. -/
def nsValues (m : NsMap) : List (List Char) := m.map Prod.snd

/-- Split a character list at the last colon that leaves a nonempty
remainder: this is how the greedy regex `^((.+):)?(.+)$` chooses the
candidate namespace group.  Returns the (possibly empty) part before that
colon and the part after it. -/
def lastColonAux : List Char → Option (List Char × List Char)
  | [] => none
  | c :: cs =>
    match lastColonAux cs with
    | some pr => some (c :: pr.1, pr.2)
    | none => if c = ':' ∧ cs ≠ [] then some ([], cs) else none

/-- A character list has no colon followed by a nonempty suffix. -/
def noColonSplit (s : List Char) : Prop := ∀ a b, s = a ++ ':' :: b → b = []

/-- Model of `ArchWiki.detect_namespace` (ArchWiki.py lines 65-77).
`none` models the two exceptions the Python code can raise: the `KeyError`
of `self.namespaces()[0]` when id 0 is absent, and the `AttributeError` of
`match.group(2)` when `re.match` fails (which happens exactly on the empty
title). -/
def detect_namespace (nsmap : NsMap) (title : List Char) :
    Option (List Char × List Char) :=
  match dlookup 0 nsmap with
  | none => none
  | some main =>
    if title = [] then none
    else
      match lastColonAux title with
      | some pr =>
        if pr.1 = [] then some (title, main)
        else if uscoreToSpace pr.1 ∈ nsValues nsmap then
          some (pr.2, uscoreToSpace pr.1)
        else some (title, main)
      | none => some (title, main)

/-- Model of the underscore-convention re-join of a `(pure title, namespace)`
pair produced by `detect_namespace`: a Main-namespace page carries no
prefix, any other namespace is prepended (with spaces turned back into
underscores) followed by a colon. -/
def rejoinTitle (pure ns : List Char) : List Char :=
  if ns = chars "Main" then pure else spaceToUscore ns ++ ':' :: pure

/-- Tokens of the `str.format` patterns used by `get_local_filename`:
literal pieces and the named placeholders base, langsubtag, namespace,
title, ext. -/
inductive PatTok
  | lit (s : List Char)
  | base
  | langsubtag
  | nsph
  | titleph
  | extph

def fmtTok (b l n t e : List Char) : PatTok → List Char
  | .lit s => s
  | .base => b
  | .langsubtag => l
  | .nsph => n
  | .titleph => t
  | .extph => e

/-- Model of `pattern.format(base=..., langsubtag=..., namespace=...,
title=..., ext=...)`. -/
def fmtPat (b l n t e : List Char) (pat : List PatTok) : List Char :=
  (pat.map (fmtTok b l n t e)).flatten

/-- Pattern base, slash, langsubtag, slash, title, dot, ext. -/
def mainPat : List PatTok :=
  [.base, .lit (chars "/"), .langsubtag, .lit (chars "/"), .titleph,
   .lit (chars "."), .extph]

/-- Pattern base, slash, langsubtag, slash, namespace, colon, title, dot, ext. -/
def contentPat : List PatTok :=
  [.base, .lit (chars "/"), .langsubtag, .lit (chars "/"), .nsph,
   .lit (chars ":"), .titleph, .lit (chars "."), .extph]

/-- Pattern base, slash, namespace, colon, title (no extension). -/
def filePat : List PatTok :=
  [.base, .lit (chars "/"), .nsph, .lit (chars ":"), .titleph]

/-- Pattern base, slash, namespace, colon, title, dot, ext. -/
def otherPat : List PatTok :=
  [.base, .lit (chars "/"), .nsph, .lit (chars ":"), .titleph,
   .lit (chars "."), .extph]

/-- The fixed allow-list of content namespaces in `get_local_filename`
(checked after underscore replacement). -/
def contentNamespaces : List (List Char) :=
  [chars "Talk", chars "ArchWiki", chars "ArchWiki_talk", chars "Template",
   chars "Template_talk", chars "Help", chars "Help_talk", chars "Category",
   chars "Category_talk"]

/-- Model of Python `str.split("/")`, keeping empty components. -/
def splitSlash : List Char → List (List Char)
  | [] => [[]]
  | c :: cs =>
    match splitSlash cs with
    | [] => [[c]]
    | h :: t => if c = '/' then [] :: h :: t else (c :: h) :: t

/-- One step of the component loop of `posixpath.normpath`. -/
def normStep (ini : Nat) (acc : List (List Char)) (comp : List Char) :
    List (List Char) :=
  if comp = [] ∨ comp = chars "." then acc
  else if ¬ comp = chars ".." ∨ (ini = 0 ∧ acc = []) ∨
      (acc ≠ [] ∧ acc.getLast? = some (chars "..")) then
    acc ++ [comp]
  else if acc ≠ [] then acc.dropLast
  else acc

/-- Model of `os.path.normpath` on POSIX (`posixpath.normpath`). -/
def normpath (p : List Char) : List Char :=
  if p = [] then chars "."
  else
    let ini : Nat :=
      if p.take 1 = chars "/" then
        if p.take 2 = chars "//" ∧ ¬ p.take 3 = chars "///" then 2 else 1
      else 0
    let comps := (splitSlash p).foldl (normStep ini) []
    let joined := List.replicate ini '/' ++ List.intercalate (chars "/") comps
    if joined = [] then chars "." else joined

/-- Model of `ArchWiki.get_local_filename` (ArchWiki.py lines 79-106):
detect the namespace, replace spaces by underscores in title and
namespace, pick the pattern by the four-branch rule, format it and
normalize the resulting path. -/
def get_local_filename (nsmap : NsMap) (title basepath : List Char) :
    Option (List Char) :=
  match detect_namespace nsmap title with
  | none => none
  | some tn =>
    let t := spaceToUscore tn.1
    let n := spaceToUscore tn.2
    let pat :=
      if n = chars "Main" then mainPat
      else if n ∈ contentNamespaces then contentPat
      else if n = chars "File" then filePat
      else otherPat
    some (normpath (fmtPat basepath (chars "zh-hans") n t (chars "html") pat))

/-- Query parameter mapping (Python `dict` of strings). -/
abbrev Params := List (List Char × List Char)

/-- Model of Python `d[k] = v`: replace the value in place when the key is
present, append the pair otherwise. -/
def dictSet {α β : Type} [DecidableEq α] (d : List (α × β)) (k : α) (v : β) :
    List (α × β) :=
  if (dlookup k d).isSome then d.map (fun p => if p.1 = k then (k, v) else p)
  else d ++ [(k, v)]

/-- Model of Python `d.update(u)`. -/
def dictUpdate {α β : Type} [DecidableEq α] (d u : List (α × β)) :
    List (α × β) :=
  u.foldl (fun d kv => dictSet d kv.1 kv.2) d

/-- Structured response of the remote query transport: optional `error`,
`warnings`, `query` and `continue` sections. -/
structure Response (β ε : Type) where
  error : Option ε
  warnings : Option (List Char)
  query : Option β
  cont : Option Params
deriving DecidableEq

/-- How a run of the `query_continue` generator ends: normal exhaustion,
the exception raised on an `error` section, or (only in the model) running
out of stubbed transport responses. -/
inductive QCOutcome (ε : Type)
  | finished
  | failed (e : ε)
  | stuck
deriving DecidableEq

/-- Trace of one run of the generator: the requests issued to the
transport, the batches yielded, and how the run ended. -/
structure QCRun (β ε : Type) where
  requests : List Params
  batches : List β
  outcome : QCOutcome ε
deriving DecidableEq

/-- Model of the loop of `ArchWiki.query_continue` (ArchWiki.py lines
27-49) against a stub transport that answers the successive calls with the
given list of responses: each iteration copies the base query, updates the
copy with the last continuation parameters, issues it, raises on an error
section, yields the `query` section if present, and stops when no
`continue` section is returned. -/
def runQC {β ε : Type} (q : Params) :
    Params → List (Response β ε) → QCRun β ε
  | _, [] => ⟨[], [], .stuck⟩
  | c, r :: rest =>
    let req := dictUpdate q c
    match r.error with
    | some e => ⟨[req], [], .failed e⟩
    | none =>
      match r.cont with
      | none => ⟨[req], r.query.toList, .finished⟩
      | some c2 =>
        let tail := runQC q c2 rest
        ⟨req :: tail.requests, r.query.toList ++ tail.batches, tail.outcome⟩

/-- The initial continuation parameter set: the single pair mapping the key "continue" to the empty string. -/
def initCont : Params := [(chars "continue", [])]

/-- Entry point of the generator: start from `initCont`. -/
def query_continue {β ε : Type} (q : Params) (resps : List (Response β ε)) :
    QCRun β ε :=
  runQC q initCont resps

/-- A stub transport of N responses, each with a results section and each
carrying a continuation token except the last, and no error sections. -/
def chainOk {β ε : Type} : List (Response β ε) → Bool
  | [] => false
  | [r] => r.error.isNone && r.query.isSome && r.cont.isNone
  | r :: rest => r.error.isNone && r.query.isSome && r.cont.isSome && chainOk rest

/-- Heap-level model of the same loop, making object identity explicit:
the store is a list of dictionaries addressed by position, the caller's
base query lives at address `qa`, and each iteration allocates a fresh
address for `query_copy = query.copy()` and applies
`query_copy.update(last_continue)` to that copy only.  Returns the final
store together with the yielded batches and the outcome. -/
def qcHeapRun {β ε : Type} (qa : Nat) :
    List Params → Params → List (Response β ε) →
      List Params × List β × QCOutcome ε
  | store, _, [] => (store, [], .stuck)
  | store, c, r :: rest =>
    let qv := (store.get? qa).getD []
    let store1 := store ++ [qv]
    let ca := store.length
    let store2 := store1.set ca (dictUpdate ((store1.get? ca).getD []) c)
    match r.error with
    | some e => (store2, [], .failed e)
    | none =>
      match r.cont with
      | none => (store2, r.query.toList, .finished)
      | some c2 =>
        let tail := qcHeapRun qa store2 c2 rest
        (tail.1, r.query.toList ++ tail.2.1, tail.2.2)

/-- Model of `ArchWiki.resolve_redirect` (ArchWiki.py lines 145-152): the
input title is first normalized to spaces, then looked up in the redirect
table, with the normalized title itself as the fallback. -/
def resolve_redirect (redirects : Params) (title : List Char) : List Char :=
  let title2 := uscoreToSpace title
  (dlookup title2 redirects).getD title2

/-- Model of `ArchWiki.namespaces` (ArchWiki.py lines 51-57) as a function
of the cache state `self._namespaces`: on a cache miss the freshly fetched
map (`super().namespaces()`, a parameter here) gets its entry 0 assigned
to "Main" and is stored; on a hit the cached map is returned untouched.
Returns the map together with the new cache state. -/
def namespacesCall (fetched : NsMap) : Option NsMap → NsMap × Option NsMap
  | some m => (m, some m)
  | none =>
    let m := dictSet fetched 0 (chars "Main")
    (m, some m)

theorem lastColonAux_eq_none_iff (s : List Char) :
    lastColonAux s = none ↔ noColonSplit s := by
  induction s with
  | nil =>
    constructor
    · intro _ a b hab
      cases a <;> simp at hab
    · intro _
      rfl
  | cons c cs ih =>
    constructor
    · intro h a b hab
      cases hcs : lastColonAux cs with
      | some pr => simp [lastColonAux, hcs] at h
      | none =>
        simp only [lastColonAux, hcs] at h
        by_cases hc : c = ':' ∧ cs ≠ []
        · simp [hc] at h
        · cases a with
          | nil =>
            simp only [List.nil_append, List.cons.injEq] at hab
            by_contra hb
            exact hc ⟨hab.1, by rw [hab.2]; exact hb⟩
          | cons a0 a' =>
            simp only [List.cons_append, List.cons.injEq] at hab
            exact (ih.mp hcs) a' b hab.2
    · intro h
      have hcs : lastColonAux cs = none := by
        apply ih.mpr
        intro a b hab
        exact h (c :: a) b (by rw [hab]; rfl)
      have hc : ¬ (c = ':' ∧ cs ≠ []) := by
        rintro ⟨h1, h2⟩
        exact h2 (h [] cs (by rw [h1]; rfl))
      simp [lastColonAux, hcs, hc]

theorem lastColonAux_some_forward :
    ∀ (s p r : List Char), lastColonAux s = some (p, r) →
      s = p ++ ':' :: r ∧ r ≠ [] ∧ noColonSplit r := by
  intro s
  induction s with
  | nil => intro p r h; simp [lastColonAux] at h
  | cons c cs ih =>
    intro p r h
    cases hcs : lastColonAux cs with
    | some pr =>
      simp only [lastColonAux, hcs, Option.some.injEq, Prod.mk.injEq] at h
      obtain ⟨hp, hr⟩ := h
      obtain ⟨hs, hrne, hnc⟩ := ih pr.1 pr.2 (by rw [hcs])
      subst hp
      subst hr
      exact ⟨by rw [List.cons_append, ← hs], hrne, hnc⟩
    | none =>
      simp only [lastColonAux, hcs] at h
      by_cases hc : c = ':' ∧ cs ≠ []
      · simp only [if_pos hc, Option.some.injEq, Prod.mk.injEq] at h
        obtain ⟨hp, hr⟩ := h
        subst hp
        subst hr
        refine ⟨by rw [hc.1]; rfl, hc.2, ?_⟩
        exact (lastColonAux_eq_none_iff _).mp hcs
      · simp [if_neg hc] at h

theorem lastColonAux_some_backward :
    ∀ (p r : List Char), r ≠ [] → noColonSplit r →
      lastColonAux (p ++ ':' :: r) = some (p, r) := by
  intro p
  induction p with
  | nil =>
    intro r hr hnc
    have h0 : lastColonAux r = none := (lastColonAux_eq_none_iff r).mpr hnc
    simp [lastColonAux, h0, hr]
  | cons c p' ih =>
    intro r hr hnc
    have h0 := ih r hr hnc
    simp [lastColonAux, h0]

/-- C1: for every raw title, `detect_namespace` either strips a genuine
`Prefix:` whose underscore-translated form matches a known namespace
display name, returning the remainder with that namespace, or returns the
entire title unchanged under the Main namespace. -/
theorem detect_namespace_classification (nsmap : NsMap) (title : List Char)
    (h0 : dlookup 0 nsmap = some (chars "Main")) (ht : title ≠ []) :
    (∃ p r, title = p ++ ':' :: r ∧ uscoreToSpace p ∈ nsValues nsmap ∧
      detect_namespace nsmap title = some (r, uscoreToSpace p))
    ∨ detect_namespace nsmap title = some (title, chars "Main") := by
  unfold detect_namespace
  rw [h0]
  simp only [if_neg ht]
  cases hlc : lastColonAux title with
  | none => right; rfl
  | some pr =>
    obtain ⟨p, r⟩ := pr
    by_cases hp : p = []
    · right; simp [hp]
    · by_cases hmem : uscoreToSpace p ∈ nsValues nsmap
      · left
        refine ⟨p, r, (lastColonAux_some_forward title p r hlc).1, hmem, ?_⟩
        simp [hp, hmem]
      · right; simp [hp, hmem]

theorem detect_namespace_classification_witness :
    dlookup 0 [(0, chars "Main"), (12, chars "Help")] = some (chars "Main") ∧
    chars "Help:Style" ≠ [] ∧
    ((∃ p r, chars "Help:Style" = p ++ ':' :: r ∧
        uscoreToSpace p ∈ nsValues [(0, chars "Main"), (12, chars "Help")] ∧
        detect_namespace [(0, chars "Main"), (12, chars "Help")]
          (chars "Help:Style") = some (r, uscoreToSpace p))
      ∨ detect_namespace [(0, chars "Main"), (12, chars "Help")]
          (chars "Help:Style") = some (chars "Help:Style", chars "Main")) :=
  ⟨by decide, by decide,
    detect_namespace_classification _ _ (by decide) (by decide)⟩

theorem uscoreToSpace_no_uscore (s : List Char) : '_' ∉ uscoreToSpace s := by
  intro h
  rw [uscoreToSpace, List.mem_map] at h
  obtain ⟨c, _, he⟩ := h
  by_cases hc : c = '_'
  · rw [if_pos hc] at he
    exact absurd he (by decide)
  · rw [if_neg hc] at he
    exact hc he

theorem uscoreToSpace_spaceToUscore (s : List Char) (h : '_' ∉ s) :
    uscoreToSpace (spaceToUscore s) = s := by
  induction s with
  | nil => rfl
  | cons c cs ih =>
    have hc : c ≠ '_' := fun hc => h (hc ▸ List.mem_cons_self c cs)
    have hcs : '_' ∉ cs := fun hm => h (List.mem_cons_of_mem c hm)
    by_cases hsp : c = ' '
    · simp only [spaceToUscore, uscoreToSpace, List.map_cons] at ih ⊢
      simp [hsp, ih hcs]
    · simp only [spaceToUscore, uscoreToSpace, List.map_cons] at ih ⊢
      simp [hsp, hc, ih hcs]

theorem uscore_space_uscore (s : List Char) :
    uscoreToSpace (spaceToUscore (uscoreToSpace s)) = uscoreToSpace s :=
  uscoreToSpace_spaceToUscore (uscoreToSpace s) (uscoreToSpace_no_uscore s)

theorem detect_namespace_inv (nsmap : NsMap) (main title pure ns : List Char)
    (h0 : dlookup 0 nsmap = some main)
    (hd : detect_namespace nsmap title = some (pure, ns)) :
    (pure = title ∧ ns = main) ∨
    (∃ p, title = p ++ ':' :: pure ∧ p ≠ [] ∧ pure ≠ [] ∧ noColonSplit pure ∧
      ns = uscoreToSpace p ∧ ns ∈ nsValues nsmap) := by
  simp only [detect_namespace, h0] at hd
  by_cases ht : title = []
  · rw [if_pos ht] at hd
    exact absurd hd (by simp)
  · rw [if_neg ht] at hd
    cases hlc : lastColonAux title with
    | none =>
      rw [hlc] at hd
      simp only [Option.some.injEq, Prod.mk.injEq] at hd
      exact Or.inl ⟨hd.1.symm, hd.2.symm⟩
    | some pr =>
      obtain ⟨p, r⟩ := pr
      rw [hlc] at hd
      dsimp only at hd
      by_cases hp : p = []
      · rw [if_pos hp] at hd
        simp only [Option.some.injEq, Prod.mk.injEq] at hd
        exact Or.inl ⟨hd.1.symm, hd.2.symm⟩
      · by_cases hmem : uscoreToSpace p ∈ nsValues nsmap
        · simp only [hp, if_neg, hmem, if_pos, Option.some.injEq, Prod.mk.injEq,
            if_false, reduceIte] at hd
        
          obtain ⟨hs, hrne, hnc⟩ := lastColonAux_some_forward title p r hlc
          right
          refine ⟨p, ?_, hp, ?_, ?_, hd.2.symm, hd.2 ▸ hmem⟩
          · rw [hs, hd.1]
          · rw [← hd.1]; exact hrne
          · rw [← hd.1]; exact hnc
        · simp only [hp, hmem, if_false, reduceIte, Option.some.injEq,
            Prod.mk.injEq] at hd
          exact Or.inl ⟨hd.1.symm, hd.2.symm⟩

/-- C7: re-joining the pair returned by `detect_namespace` with the
underscore convention and re-parsing yields the same pair. -/
theorem detect_namespace_round_trip (nsmap : NsMap) (title pure ns : List Char)
    (h0 : dlookup 0 nsmap = some (chars "Main"))
    (hd : detect_namespace nsmap title = some (pure, ns)) :
    detect_namespace nsmap (rejoinTitle pure ns) = some (pure, ns) := by
  rcases detect_namespace_inv nsmap (chars "Main") title pure ns h0 hd with
    ⟨hp, hn⟩ | ⟨p, hts, hpne, hpure, hnc, hns, hmem⟩
  · subst hn
    subst hp
    rw [rejoinTitle, if_pos rfl]
    exact hd
  · by_cases hnm : ns = chars "Main"
    · rw [rejoinTitle, if_pos hnm]
      have hnone : lastColonAux pure = none := (lastColonAux_eq_none_iff pure).mpr hnc
      simp only [detect_namespace, h0, if_neg hpure, hnone, hnm]
    · rw [rejoinTitle, if_neg hnm]
      have hne : spaceToUscore ns ++ ':' :: pure ≠ [] := by simp
      have h1 : lastColonAux (spaceToUscore ns ++ ':' :: pure) =
          some (spaceToUscore ns, pure) :=
        lastColonAux_some_backward _ _ hpure hnc
      have hnsne : spaceToUscore ns ≠ [] := by
        rw [hns]
        simp only [spaceToUscore, uscoreToSpace, List.map_map, ne_eq,
          List.map_eq_nil_iff]
        exact hpne
      have hust : uscoreToSpace (spaceToUscore ns) = ns := by
        rw [hns]
        exact uscore_space_uscore p
      simp [detect_namespace, h0, hne, h1, hnsne, hust, hmem]

theorem detect_namespace_round_trip_witness :
    detect_namespace [(0, chars "Main"), (12, chars "Help")] (chars "Help:Style") =
      some (chars "Style", chars "Help") ∧
    detect_namespace [(0, chars "Main"), (12, chars "Help")]
      (rejoinTitle (chars "Style") (chars "Help")) =
      some (chars "Style", chars "Help") :=
  ⟨by decide,
    detect_namespace_round_trip _ (chars "Help:Style") _ _ (by decide) (by decide)⟩

/-- C10: with two or more colons in a title, the candidate namespace is
everything up to the last colon (that leaves a nonempty remainder), so the
title is stripped only when that whole candidate names a namespace, and is
otherwise put under Main even when a shorter candidate would match. -/
theorem detect_namespace_greedy_last_colon (nsmap : NsMap) (main a b r : List Char)
    (h0 : dlookup 0 nsmap = some main) (hr : r ≠ []) (hnc : noColonSplit r) :
    (uscoreToSpace (a ++ ':' :: b) ∈ nsValues nsmap →
      detect_namespace nsmap (a ++ ':' :: b ++ ':' :: r) =
        some (r, uscoreToSpace (a ++ ':' :: b)))
    ∧ (uscoreToSpace (a ++ ':' :: b) ∉ nsValues nsmap →
      detect_namespace nsmap (a ++ ':' :: b ++ ':' :: r) =
        some (a ++ ':' :: b ++ ':' :: r, main)) := by
  have hlc : lastColonAux (a ++ ':' :: (b ++ ':' :: r)) = some (a ++ ':' :: b, r) := by
    have h := lastColonAux_some_backward (a ++ ':' :: b) r hr hnc
    simpa [List.append_assoc, List.cons_append] using h
  have hne : a ++ ':' :: b ++ ':' :: r ≠ [] := by simp
  have hpne : a ++ ':' :: b ≠ [] := by simp
  constructor <;> intro hmem <;>
    simp [detect_namespace, h0, hne, hlc, hpne, hmem]

theorem detect_namespace_greedy_witness :
    chars "Help" ∈ nsValues [(0, chars "Main"), (12, chars "Help")] ∧
    detect_namespace [(0, chars "Main"), (12, chars "Help")]
      (chars "Help" ++ ':' :: chars "Foo" ++ ':' :: chars "Bar") =
      some (chars "Help" ++ ':' :: chars "Foo" ++ ':' :: chars "Bar", chars "Main") :=
  ⟨by decide,
    (detect_namespace_greedy_last_colon _ _ (chars "Help") (chars "Foo") (chars "Bar")
      (by decide) (by decide)
      ((lastColonAux_eq_none_iff _).mp (by decide))).2 (by decide)⟩

/-- C2: `get_local_filename` replaces spaces by underscores in title and
namespace, formats the path by the four-branch rule (Main, content
allow-list, File without extension, other), and returns the normalized
path; and title "Installation guide" in Main with base "/out" yields
"/out/zh-hans/Installation_guide.html". -/
theorem get_local_filename_four_branch (nsmap : NsMap)
    (title basepath t0 ns0 : List Char)
    (hd : detect_namespace nsmap title = some (t0, ns0)) :
    (get_local_filename nsmap title basepath =
      some (normpath (
        if spaceToUscore ns0 = chars "Main" then
          basepath ++ chars "/" ++ chars "zh-hans" ++ chars "/" ++
            spaceToUscore t0 ++ chars ".html"
        else if spaceToUscore ns0 ∈ contentNamespaces then
          basepath ++ chars "/" ++ chars "zh-hans" ++ chars "/" ++
            spaceToUscore ns0 ++ chars ":" ++ spaceToUscore t0 ++ chars ".html"
        else if spaceToUscore ns0 = chars "File" then
          basepath ++ chars "/" ++ spaceToUscore ns0 ++ chars ":" ++
            spaceToUscore t0
        else
          basepath ++ chars "/" ++ spaceToUscore ns0 ++ chars ":" ++
            spaceToUscore t0 ++ chars ".html")))
    ∧ get_local_filename [(0, chars "Main")] (chars "Installation guide")
        (chars "/out") = some (chars "/out/zh-hans/Installation_guide.html") := by
  constructor
  · have hext : chars "." ++ chars "html" = chars ".html" := by decide
    simp only [get_local_filename, hd]
    by_cases h1 : spaceToUscore ns0 = chars "Main"
    · simp only [if_pos h1]
      simp [fmtPat, fmtTok, mainPat, hext]
    · simp only [if_neg h1]
      by_cases h2 : spaceToUscore ns0 ∈ contentNamespaces
      · simp only [if_pos h2]
        simp [fmtPat, fmtTok, contentPat, hext]
      · simp only [if_neg h2]
        by_cases h3 : spaceToUscore ns0 = chars "File"
        · simp only [if_pos h3]
          simp [fmtPat, fmtTok, filePat, hext]
        · simp only [if_neg h3]
          simp [fmtPat, fmtTok, otherPat, hext]
  · decide

theorem get_local_filename_four_branch_witness :
    get_local_filename [(0, chars "Main")] (chars "Installation guide")
      (chars "/out") = some (chars "/out/zh-hans/Installation_guide.html") :=
  (get_local_filename_four_branch [(0, chars "Main")]
    (chars "Installation guide") (chars "/out") (chars "Installation guide")
    (chars "Main") (by decide)).2

theorem runQC_cons_err {β ε : Type} (q c : Params) (r : Response β ε)
    (rest : List (Response β ε)) (e : ε) (hre : r.error = some e) :
    runQC q c (r :: rest) = ⟨[dictUpdate q c], [], .failed e⟩ := by
  simp [runQC, hre]

theorem runQC_cons_fin {β ε : Type} (q c : Params) (r : Response β ε)
    (rest : List (Response β ε)) (hre : r.error = none) (hrc : r.cont = none) :
    runQC q c (r :: rest) = ⟨[dictUpdate q c], r.query.toList, .finished⟩ := by
  simp [runQC, hre, hrc]

theorem runQC_cons_cont {β ε : Type} (q c c2 : Params) (r : Response β ε)
    (rest : List (Response β ε)) (hre : r.error = none) (hrc : r.cont = some c2) :
    runQC q c (r :: rest) = ⟨dictUpdate q c :: (runQC q c2 rest).requests,
      r.query.toList ++ (runQC q c2 rest).batches, (runQC q c2 rest).outcome⟩ := by
  simp [runQC, hre, hrc]

theorem runQC_chain {β ε : Type} :
    ∀ (resps : List (Response β ε)) (q c : Params), chainOk resps = true →
      (runQC q c resps).batches = resps.filterMap Response.query ∧
      (runQC q c resps).batches.length = resps.length ∧
      (runQC q c resps).outcome = QCOutcome.finished := by
  intro resps
  induction resps with
  | nil => intro q c h; simp [chainOk] at h
  | cons r rest ih =>
    intro q c h
    cases rest with
    | nil =>
      simp only [chainOk, Bool.and_eq_true] at h
      obtain ⟨⟨he, hq⟩, hc⟩ := h
      rcases hre : r.error with _ | e
      · rcases hrc : r.cont with _ | c2
        · rcases hrq : r.query with _ | b
          · rw [hrq] at hq; simp at hq
          · simp [runQC, hre, hrc, hrq]
        · rw [hrc] at hc; simp at hc
      · rw [hre] at he; simp at he
    | cons r2 rest2 =>
      simp only [chainOk, Bool.and_eq_true] at h
      obtain ⟨⟨⟨he, hq⟩, hc⟩, hrest⟩ := h
      rcases hre : r.error with _ | e
      · rcases hrc : r.cont with _ | c2
        · rw [hrc] at hc; simp at hc
        · obtain ⟨b, hb⟩ := Option.isSome_iff_exists.mp hq
          obtain ⟨ih1, ih2, ih3⟩ := ih q c2 hrest
          rw [runQC_cons_cont q c c2 r (r2 :: rest2) hre hrc]
          refine ⟨?_, ?_, ?_⟩
          · simp [hb, ih1]
          · simp [hb, ih2]
          · simpa using ih3
      · rw [hre] at he; simp at he

/-- C3: against a stub transport of N responses each containing a results
section and each carrying a continuation token except the last,
`query_continue` yields exactly the N result batches, in order, and then
terminates normally. -/
theorem query_continue_yields_each_batch {β ε : Type} (q : Params)
    (resps : List (Response β ε)) (h : chainOk resps = true) :
    (query_continue q resps).batches = resps.filterMap Response.query ∧
    (query_continue q resps).batches.length = resps.length ∧
    (query_continue q resps).outcome = QCOutcome.finished :=
  runQC_chain resps q initCont h

theorem query_continue_yields_each_batch_witness :
    chainOk [(⟨none, none, some 1, some []⟩ : Response Nat Nat),
      ⟨none, none, some 2, none⟩] = true ∧
    ((query_continue [] [(⟨none, none, some 1, some []⟩ : Response Nat Nat),
        ⟨none, none, some 2, none⟩]).batches =
      [(⟨none, none, some 1, some []⟩ : Response Nat Nat),
        ⟨none, none, some 2, none⟩].filterMap Response.query ∧
     (query_continue [] [(⟨none, none, some 1, some []⟩ : Response Nat Nat),
        ⟨none, none, some 2, none⟩]).batches.length = 2 ∧
     (query_continue [] [(⟨none, none, some 1, some []⟩ : Response Nat Nat),
        ⟨none, none, some 2, none⟩]).outcome = QCOutcome.finished) :=
  ⟨by decide, query_continue_yields_each_batch [] _ (by decide)⟩

theorem dictSet_keys {α β : Type} [DecidableEq α] (d : List (α × β))
    (k0 : α) (v : β) (k : α) (hk : k ≠ k0) (hd : k ∉ d.map Prod.fst) :
    k ∉ (dictSet d k0 v).map Prod.fst := by
  unfold dictSet
  by_cases hl : (dlookup k0 d).isSome
  · rw [if_pos hl]
    intro hmem
    rw [List.map_map, List.mem_map] at hmem
    obtain ⟨p, hp, he⟩ := hmem
    by_cases hpk : p.1 = k0
    · simp only [Function.comp_apply, if_pos hpk] at he
      exact hk he.symm
    · simp only [Function.comp_apply, if_neg hpk] at he
      exact hd (List.mem_map.mpr ⟨p, hp, he⟩)
  · rw [if_neg hl]
    intro hmem
    rw [List.map_append, List.mem_append] at hmem
    rcases hmem with hmem | hmem
    · exact hd hmem
    · simp at hmem
      exact hk hmem

theorem dictUpdate_keys {α β : Type} [DecidableEq α] :
    ∀ (u d : List (α × β)) (k : α), k ∉ d.map Prod.fst →
      k ∉ u.map Prod.fst → k ∉ (dictUpdate d u).map Prod.fst := by
  intro u
  induction u with
  | nil => intro d k hd _; exact hd
  | cons kv u2 ih =>
    intro d k hd hu
    simp only [List.map_cons, List.mem_cons] at hu
    push_neg at hu
    have step := ih (dictSet d kv.1 kv.2) k
      (dictSet_keys d kv.1 kv.2 k hu.1 hd) hu.2
    simpa [dictUpdate, List.foldl_cons] using step

/-- C4: each request issued by the generator is the base query updated with
exactly the most recent continuation parameters.  The first request merges
the initial `continue` parameter set; after a response carrying
continuation `c2` the remaining requests are those of a run restarted from
the untouched base query with `c2` alone, so the previous continuation set
is replaced wholesale; and a key absent from both the base query and the
current continuation never appears in a request. -/
theorem query_continue_requests_merge :
    (∀ (β ε : Type) (q : Params) (resps : List (Response β ε)), resps ≠ [] →
      (query_continue q resps).requests.head? = some (dictUpdate q initCont))
    ∧ (∀ (β ε : Type) (q c c2 : Params) (r : Response β ε)
        (rest : List (Response β ε)), r.error = none → r.cont = some c2 →
        (runQC q c (r :: rest)).requests =
          dictUpdate q c :: (runQC q c2 rest).requests)
    ∧ (∀ (q c2 : Params) (k : List Char), k ∉ q.map Prod.fst →
        k ∉ c2.map Prod.fst → k ∉ (dictUpdate q c2).map Prod.fst) := by
  refine ⟨?_, ?_, ?_⟩
  · intro β ε q resps hne
    cases resps with
    | nil => exact absurd rfl hne
    | cons r rest =>
      rcases hre : r.error with _ | e
      · rcases hrc : r.cont with _ | c2
        · rw [query_continue, runQC_cons_fin q initCont r rest hre hrc]
          rfl
        · rw [query_continue, runQC_cons_cont q initCont c2 r rest hre hrc]
          rfl
      · rw [query_continue, runQC_cons_err q initCont r rest e hre]
        rfl
  · intro β ε q c c2 r rest hre hrc
    rw [runQC_cons_cont q c c2 r rest hre hrc]
  · intro q c2 k hq hc
    exact dictUpdate_keys c2 q k hq hc

theorem query_continue_requests_merge_witness :
    ([(⟨none, none, some 1, none⟩ : Response Nat Nat)] ≠ []) ∧
    (query_continue [] [(⟨none, none, some 1, none⟩ : Response Nat Nat)]
      ).requests.head? = some (dictUpdate [] initCont) ∧
    (runQC [] initCont [(⟨none, none, some 1,
        some [(chars "a", chars "b")]⟩ : Response Nat Nat),
        ⟨none, none, some 2, none⟩]).requests =
      dictUpdate [] initCont ::
        (runQC [] [(chars "a", chars "b")]
          [(⟨none, none, some 2, none⟩ : Response Nat Nat)]).requests ∧
    chars "x" ∉
      (dictUpdate [(chars "q", chars "v")] [(chars "a", chars "b")]).map
        Prod.fst :=
  ⟨by decide,
    query_continue_requests_merge.1 Nat Nat [] _ (by simp),
    query_continue_requests_merge.2.1 Nat Nat [] initCont
      [(chars "a", chars "b")] _ _ rfl rfl,
    query_continue_requests_merge.2.2 [(chars "q", chars "v")]
      [(chars "a", chars "b")] (chars "x") (by decide) (by decide)⟩

theorem runQC_error_aux {β ε : Type} :
    ∀ (pre : List (Response β ε)) (q c : Params) (r : Response β ε)
      (rest : List (Response β ε)) (e : ε),
      (∀ x ∈ pre, x.error = none ∧ x.cont.isSome) → r.error = some e →
      (runQC q c (pre ++ r :: rest)).outcome = QCOutcome.failed e ∧
      (runQC q c (pre ++ r :: rest)).batches = pre.filterMap Response.query := by
  intro pre
  induction pre with
  | nil =>
    intro q c r rest e _ he
    rw [List.nil_append, runQC_cons_err q c r rest e he]
    exact ⟨rfl, rfl⟩
  | cons x pre2 ih =>
    intro q c r rest e hpre he
    obtain ⟨hxe, hxc⟩ := hpre x (List.mem_cons_self x pre2)
    obtain ⟨cx, hcx⟩ := Option.isSome_iff_exists.mp hxc
    obtain ⟨ih1, ih2⟩ :=
      ih q cx r rest e (fun y hy => hpre y (List.mem_cons_of_mem x hy)) he
    rw [List.cons_append, runQC_cons_cont q c cx x (pre2 ++ r :: rest) hxe hcx]
    refine ⟨ih1, ?_⟩
    rw [List.filterMap_cons]
    cases x.query with
    | none => simpa using ih2
    | some b => simpa using ih2

/-- C6: if a transport response carries an error section, the generator
fails right there with the server-reported error payload and yields no
batch from that response nor any later one: only the batches of the
error-free responses before it are produced. -/
theorem query_continue_error_aborts {β ε : Type} (q : Params)
    (pre rest : List (Response β ε)) (r : Response β ε) (e : ε)
    (hpre : ∀ x ∈ pre, x.error = none ∧ x.cont.isSome) (he : r.error = some e) :
    (query_continue q (pre ++ r :: rest)).outcome = QCOutcome.failed e ∧
    (query_continue q (pre ++ r :: rest)).batches =
      pre.filterMap Response.query :=
  runQC_error_aux pre q initCont r rest e hpre he

theorem query_continue_error_aborts_witness :
    (∀ x ∈ [(⟨none, none, some 1, some []⟩ : Response Nat Nat)],
      x.error = none ∧ x.cont.isSome) ∧
    ((query_continue [] ([(⟨none, none, some 1, some []⟩ : Response Nat Nat)] ++
        (⟨some 7, none, some 2, none⟩ : Response Nat Nat) ::
          [(⟨none, none, some 3, some []⟩ : Response Nat Nat)])).outcome =
      QCOutcome.failed 7 ∧
     (query_continue [] ([(⟨none, none, some 1, some []⟩ : Response Nat Nat)] ++
        (⟨some 7, none, some 2, none⟩ : Response Nat Nat) ::
          [(⟨none, none, some 3, some []⟩ : Response Nat Nat)])).batches =
      [(⟨none, none, some 1, some []⟩ : Response Nat Nat)].filterMap
        Response.query) :=
  ⟨by decide, query_continue_error_aborts [] _ _ _ 7 (by decide) rfl⟩

/-- C9: iterating the generator never mutates the caller's base query
dictionary: whatever is stored at the base query's address before the run
is still stored there after any number of iterations. -/
theorem qcHeapRun_base_query_unchanged {β ε : Type} :
    ∀ (resps : List (Response β ε)) (store : List Params) (qa : Nat)
      (c : Params), qa < store.length →
      (qcHeapRun qa store c resps).1.get? qa = store.get? qa := by
  intro resps
  induction resps with
  | nil => intro store qa c _; rfl
  | cons r rest ih =>
    intro store qa c hqa
    have hca : store.length ≠ qa := Nat.ne_of_gt hqa
    have h1 : (store ++ [(store.get? qa).getD []]).get? qa = store.get? qa :=
      List.get?_append hqa
    have h2 : ∀ v, ((store ++ [(store.get? qa).getD []]).set store.length
        v).get? qa = store.get? qa := by
      intro v
      rw [List.get?_set_ne _ _ hca, h1]
    have hlen : qa < ((store ++ [(store.get? qa).getD []]).set store.length
        (dictUpdate (((store ++ [(store.get? qa).getD []]).get?
          store.length).getD []) c)).length := by
      simp only [List.length_set, List.length_append, List.length_cons,
        List.length_nil]
      omega
    rcases hre : r.error with _ | e
    · rcases hrc : r.cont with _ | c2
      · simp only [qcHeapRun, hre, hrc]
        exact h2 _
      · simp only [qcHeapRun, hre, hrc]
        rw [ih _ qa c2 hlen]
        exact h2 _
    · simp only [qcHeapRun, hre]
      exact h2 _

theorem qcHeapRun_base_query_unchanged_witness :
    (0 : Nat) < [[(chars "action", chars "query")]].length ∧
    (qcHeapRun 0 [[(chars "action", chars "query")]] initCont
        [(⟨none, none, some 1, some []⟩ : Response Nat Nat),
          ⟨none, none, some 2, none⟩]).1.get? 0 =
      [[(chars "action", chars "query")]].get? 0 :=
  ⟨by decide,
    qcHeapRun_base_query_unchanged
      [(⟨none, none, some 1, some []⟩ : Response Nat Nat),
        ⟨none, none, some 2, none⟩]
      [[(chars "action", chars "query")]] 0 initCont (by decide)⟩

/-- C5 counterexample: with an empty redirect table, "a_b" is not a
redirect, yet `resolve_redirect` does not return the input unchanged: it
returns the space-normalized form "a b". -/
theorem resolve_redirect_counterexample :
    dlookup (uscoreToSpace (chars "a_b")) ([] : Params) = none ∧
    resolve_redirect [] (chars "a_b") ≠ chars "a_b" ∧
    resolve_redirect [] (chars "a_b") = chars "a b" := by
  decide

theorem uscoreToSpace_of_no_uscore : ∀ (s : List Char), '_' ∉ s →
    uscoreToSpace s = s := by
  intro s
  induction s with
  | nil => intro _; rfl
  | cons c cs ih =>
    intro h
    rw [List.mem_cons] at h
    push_neg at h
    have hc : ¬ c = '_' := fun he => h.1 he.symm
    show ((if c = '_' then ' ' else c) :: uscoreToSpace cs) = c :: cs
    rw [if_neg hc, ih h.2]

/-- C5 (amended): `resolve_redirect` returns the mapped target (which, by
construction of the table, carries "#fragment" when the redirect names a
sub-section) when the space-normalized title is a key of the table, and
otherwise returns the input title normalized to spaces — hence unchanged
exactly when the input already uses spaces; a non-redirect title without
underscores is returned unchanged. -/
theorem resolve_redirect_amended (tbl : Params) (title : List Char) :
    (∀ v, dlookup (uscoreToSpace title) tbl = some v →
      resolve_redirect tbl title = v) ∧
    (dlookup (uscoreToSpace title) tbl = none →
      resolve_redirect tbl title = uscoreToSpace title) ∧
    ('_' ∉ title → dlookup (uscoreToSpace title) tbl = none →
      resolve_redirect tbl title = title) := by
  refine ⟨?_, ?_, ?_⟩
  · intro v hv
    simp [resolve_redirect, hv]
  · intro hv
    simp [resolve_redirect, hv]
  · intro hu hv
    have heq := uscoreToSpace_of_no_uscore title hu
    rw [heq] at hv
    simp [resolve_redirect, heq, hv]

theorem resolve_redirect_amended_witness :
    resolve_redirect [(chars "Beginners guide", chars "Installation guide")]
      (chars "Beginners_guide") = chars "Installation guide" ∧
    resolve_redirect [] (chars "Installation guide") =
      chars "Installation guide" :=
  ⟨(resolve_redirect_amended
      [(chars "Beginners guide", chars "Installation guide")]
      (chars "Beginners_guide")).1 _ (by decide),
    (resolve_redirect_amended [] (chars "Installation guide")).2.2
      (by decide) (by decide)⟩

theorem dlookup_map_set {α β : Type} [DecidableEq α] :
    ∀ (d : List (α × β)) (k : α) (v : β), (dlookup k d).isSome →
      dlookup k (d.map (fun p => if p.1 = k then (k, v) else p)) = some v := by
  intro d
  induction d with
  | nil => intro k v h; simp [dlookup] at h
  | cons kv rest ih =>
    intro k v h
    by_cases hk : kv.1 = k
    · simp [dlookup, hk]
    · have h2 : (dlookup k rest).isSome := by simpa [dlookup, hk] using h
      simp [dlookup, hk, ih k v h2]

theorem dlookup_append_self {α β : Type} [DecidableEq α] :
    ∀ (d : List (α × β)) (k : α) (v : β), dlookup k d = none →
      dlookup k (d ++ [(k, v)]) = some v := by
  intro d
  induction d with
  | nil => intro k v _; simp [dlookup]
  | cons kv rest ih =>
    intro k v h
    by_cases hk : kv.1 = k
    · simp [dlookup, hk] at h
    · simp [dlookup, hk] at h ⊢
      exact ih k v h

theorem dlookup_dictSet_self {α β : Type} [DecidableEq α]
    (d : List (α × β)) (k : α) (v : β) :
    dlookup k (dictSet d k v) = some v := by
  unfold dictSet
  by_cases hl : (dlookup k d).isSome
  · rw [if_pos hl]
    exact dlookup_map_set d k v hl
  · rw [if_neg hl]
    exact dlookup_append_self d k v (Option.not_isSome_iff_eq_none.mp hl)

/-- C8: the namespace vocabulary is fetched at most once and cached: after
the first call, any later call — whatever a fresh fetch would return now —
returns the same cached map and leaves the cache unchanged; and in the
cached map the entry for namespace id 0 is overridden to "Main", whatever
display name (such as the empty one) the fetch reported for id 0. -/
theorem namespaces_cached_and_override (raw raw2 : NsMap) :
    namespacesCall raw2 (namespacesCall raw none).2 = namespacesCall raw none ∧
    dlookup 0 (namespacesCall raw none).1 = some (chars "Main") := by
  constructor
  · rfl
  · exact dlookup_dictSet_self raw 0 (chars "Main")
